import Mathlib

set_option maxHeartbeats 1000000

/-!
Shallow embedding and verification of the numerical primitives in
`misc.py` and `integrate.py`: matrix vectorization and unvectorization,
piecewise pre-integration of coefficient functions, the Arnoldi and
Lanczos Krylov-basis builders, the Krylov matrix-exponential action
`krylov_expm`, and the Padé matrix exponential `pade_expm`.

Python arrays of dynamic shape are embedded as lists; the three ways a
call can end (normal return, printed error returning `None`, uncaught
exception) are the three constructors of `Py`.  Exact arithmetic is
used throughout (`ℝ`, `ℂ`, or a generic entry type where the code only
rearranges data).
-/

/-- Outcome of a Python call in this embedding: a normal return value, the
printed-error path that returns `None`, or an uncaught exception (such as a
`ZeroDivisionError` or `IndexError`). -/
inductive Py (α : Type) where
  | ok : α → Py α
  | errNone : Py α
  | exn : Py α
deriving DecidableEq

/-- Value returned by `unvec` on a success path: either a 1-D array or a
2-D array given as its list of rows. -/
inductive NDArr (α : Type) where
  | arr1 : List α → NDArr α
  | arr2 : List (List α) → NDArr α
deriving DecidableEq

/-- Column `j` of a matrix given as a list of rows (those entries of the
rows that exist at index `j`). -/
def colList (M : List (List α)) (j : ℕ) : List α :=
  M.filterMap (fun row => row[j]?)

/-- Embedding of `vec` (misc.py): `np.asarray(mat).flatten('F')`, i.e. the
columns of the matrix stacked in order (column-major flattening). -/
def vec (M : List (List α)) : List α :=
  (List.range (M.headD []).length).flatMap (colList M)

/-- Fortran-order reshape of a flat vector into `c` rows of `n` entries:
entry `(i, j)` of the result is `v[j*c+i]`, matching
`np.reshape((c, n), order='F')`. -/
def reshapeF (v : List α) (c n : ℕ) : List (List α) :=
  (List.range c).map (fun i => (List.range n).filterMap (fun j => v[j * c + i]?))

/-- Embedding of `unvec` (misc.py).  Odd length: return the vector itself
when the length is 1, otherwise print an error and return `None`.  Even
length with no column count: infer a square side from the integer square
root when the length is a perfect square, else print an error and return
`None`; a zero side (empty vector) hits `int(len(vec) / c)` with `c = 0`,
a `ZeroDivisionError`.  Even length with a column count `c`: `c = 0` makes
`(len(vec) / c).is_integer()` raise `ZeroDivisionError`; a `c` that does
not divide the length prints an error and returns `None`; otherwise the
vector is reshaped in column-major order into rows of length
`len(vec) / c`. -/
def unvec (v : List α) (copt : Option ℕ) : Py (NDArr α) :=
  if v.length % 2 ≠ 0 then
    if v.length = 1 then Py.ok (NDArr.arr1 v) else Py.errNone
  else
    match copt with
    | none =>
      if Nat.sqrt v.length * Nat.sqrt v.length = v.length then
        if Nat.sqrt v.length = 0 then Py.exn
        else Py.ok (NDArr.arr2 (reshapeF v (Nat.sqrt v.length) (v.length / Nat.sqrt v.length)))
      else Py.errNone
    | some c =>
      if c = 0 then Py.exn
      else if v.length % c ≠ 0 then Py.errNone
      else Py.ok (NDArr.arr2 (reshapeF v c (v.length / c)))

/-- Well-formedness of a matrix given as a list of rows: exactly `r` rows,
each of length `c`. -/
def IsMat (M : List (List α)) (r c : ℕ) : Prop :=
  M.length = r ∧ ∀ row ∈ M, row.length = c

/-- Dynamically typed Python value flowing through `pre_integrate`:
a float, a callable coefficient function, a list, or the
(value, error-estimate) tuple that `scipy.integrate.quad` returns. -/
inductive PyVal where
  | num : ℝ → PyVal
  | fn : (ℝ → ℝ) → PyVal
  | list : List PyVal → PyVal
  | pair : ℝ → ℝ → PyVal

/-- Uncaught exceptions arising in the integrate.py embedding. -/
inductive PyErr where
  | indexError : PyErr
  | typeError : PyErr
deriving DecidableEq

/-- Python list indexing: an out-of-range index raises `IndexError`. -/
def getIdx (l : List α) (i : ℕ) : Except PyErr α :=
  match l[i]? with
  | some x => Except.ok x
  | none => Except.error PyErr.indexError

/-- Indexing into a `PyVal`: lists index normally, tuples expose their two
components, and indexing a float or a function raises `TypeError`. -/
def idxVal : PyVal → ℕ → Except PyErr PyVal
  | PyVal.list l, i => getIdx l i
  | PyVal.pair a b, i =>
    if i = 0 then Except.ok (PyVal.num a)
    else if i = 1 then Except.ok (PyVal.num b)
    else Except.error PyErr.indexError
  | _, _ => Except.error PyErr.typeError

/-- Calling a `PyVal`: only a function value is callable; anything else
raises `TypeError` when the quadrature routine invokes it. -/
def asFn : PyVal → Except PyErr (ℝ → ℝ)
  | PyVal.fn f => Except.ok f
  | _ => Except.error PyErr.typeError

/-- Multiplying a `PyVal` by a float: numbers multiply; multiplying a
list, tuple or function by a float raises `TypeError`. -/
def pyMulFloat : PyVal → ℝ → Except PyErr PyVal
  | PyVal.num x, t => Except.ok (PyVal.num (x * t))
  | _, _ => Except.error PyErr.typeError

/-- Embedding of `integrate` (integrate.py): fixed-degree Gauss-Legendre
quadrature on `[a, b]` via the affine change of variables, where `xw i`
supplies the node/weight pairs produced by the external
`np.polynomial.legendre.leggauss`. -/
noncomputable def integrate (xw : ℕ → ℝ × ℝ) (f : ℝ → ℝ) (a b : ℝ)
    (deg : ℕ) : ℝ :=
  (∑ i in Finset.range deg,
    (xw i).2 * f ((b - a) / 2 * (xw i).1 + (a + b) / 2)) * ((b - a) / 2)

/-- One iteration of the `method="me"` loop of `pre_integrate` at index
`i`, in Python evaluation order: index `H_coeff[i]`, then `[0]`, then
`tlist[i]` and `tlist[i+1]` (the loop runs `i` up to `len(tlist) - 1`, so
the last iteration raises `IndexError` here), then call the integrator;
likewise for `val[1]`; finally `val[2] = H_coeff[2] * (tlist[i+1] -
tlist[i])`, which indexes the third element of `H_coeff` itself (not of
the `i`-th triple) and multiplies it by a float. -/
noncomputable def preIntStepMe (xw : ℕ → ℝ × ℝ) (H_coeff : List PyVal)
    (tlist : List ℝ) (i : ℕ) : Except PyErr PyVal := do
  let trip ← getIdx H_coeff i
  let f0v ← idxVal trip 0
  let a ← getIdx tlist i
  let b ← getIdx tlist (i + 1)
  let f0 ← asFn f0v
  let v0 := integrate xw f0 a b 100
  let f1v ← idxVal trip 1
  let f1 ← asFn f1v
  let v1 := integrate xw f1 a b 100
  let third ← getIdx H_coeff 2
  let v2 ← pyMulFloat third (b - a)
  return PyVal.list [PyVal.num v0, PyVal.num v1, v2]

/-- One iteration of the `method="scipy"` loop of `pre_integrate`; the
external adaptive quadrature `squad` returns a (value, error) tuple that
is stored as-is in `val[0]` and `val[1]`. -/
def preIntStepScipy (squad : (ℝ → ℝ) → ℝ → ℝ → ℝ × ℝ) (H_coeff : List PyVal)
    (tlist : List ℝ) (i : ℕ) : Except PyErr PyVal := do
  let trip ← getIdx H_coeff i
  let f0v ← idxVal trip 0
  let a ← getIdx tlist i
  let b ← getIdx tlist (i + 1)
  let f0 ← asFn f0v
  let v0 := squad f0 a b
  let f1v ← idxVal trip 1
  let f1 ← asFn f1v
  let v1 := squad f1 a b
  let third ← getIdx H_coeff 2
  let v2 ← pyMulFloat third (b - a)
  return PyVal.list [PyVal.pair v0.1 v0.2, PyVal.pair v1.1 v1.2, v2]

/-- The `method="me"` loop: iterations `i, i+1, ...` for `cnt` steps,
collecting each iteration's triple. -/
noncomputable def preIntLoopMe (xw : ℕ → ℝ × ℝ) (H_coeff : List PyVal)
    (tlist : List ℝ) : ℕ → ℕ → Except PyErr (List PyVal)
  | 0, _ => Except.ok []
  | cnt + 1, i => do
    let v ← preIntStepMe xw H_coeff tlist i
    let rest ← preIntLoopMe xw H_coeff tlist cnt (i + 1)
    return v :: rest

/-- The `method="scipy"` loop. -/
def preIntLoopScipy (squad : (ℝ → ℝ) → ℝ → ℝ → ℝ × ℝ) (H_coeff : List PyVal)
    (tlist : List ℝ) : ℕ → ℕ → Except PyErr (List PyVal)
  | 0, _ => Except.ok []
  | cnt + 1, i => do
    let v ← preIntStepScipy squad H_coeff tlist i
    let rest ← preIntLoopScipy squad H_coeff tlist cnt (i + 1)
    return v :: rest

/-- Embedding of `pre_integrate` (integrate.py).  The loop in both known
methods runs `for i in range(len(tlist))`; an unknown method prints
"Error: invalid method." and returns the sentinel `0` (a normal, non-raising
return). -/
noncomputable def pre_integrate (squad : (ℝ → ℝ) → ℝ → ℝ → ℝ × ℝ)
    (xw : ℕ → ℝ × ℝ) (H_coeff : List PyVal) (tlist : List ℝ)
    (method : String) : Except PyErr PyVal :=
  if method = "scipy" then
    (preIntLoopScipy squad H_coeff tlist tlist.length 0).map PyVal.list
  else if method = "me" then
    (preIntLoopMe xw H_coeff tlist tlist.length 0).map PyVal.list
  else Except.ok (PyVal.num 0)

/-- Constant stand-in for the external scipy quadrature routine, used only
to instantiate closed statements. -/
def quadZero : (ℝ → ℝ) → ℝ → ℝ → ℝ × ℝ := fun _ _ _ => (0, 0)

/-- Constant stand-in for the external Gauss-Legendre node/weight table,
used only to instantiate closed statements. -/
def xwZero : ℕ → ℝ × ℝ := fun _ => (0, 0)

/-- Vectors of the Krylov engine: complex entries indexed by `ℕ`; only the
first `m` entries are live, the rest stay at their constructed values. -/
abbrev CVec := ℕ → ℂ

/-- Matrices of the Krylov engine, indexed like `CVec`. -/
abbrev CMat := ℕ → ℕ → ℂ

/-- Column `j` of a matrix, `V[:, j]`. -/
def col (V : CMat) (j : ℕ) : CVec := fun r => V r j

/-- Assignment `V[:, j] = w`. -/
def setCol (V : CMat) (j : ℕ) (w : CVec) : CMat :=
  fun r c => if c = j then w r else V r c

/-- Assignment `H[i, j] = z`. -/
def setEntry (H : CMat) (i j : ℕ) (z : ℂ) : CMat :=
  fun r c => if r = i ∧ c = j then z else H r c

/-- Assignment `v[i] = z` for a coefficient array. -/
def setv (v : CVec) (i : ℕ) (z : ℂ) : CVec :=
  fun r => if r = i then z else v r

/-- Embedding of `np.dot(u.conj(), v)` over the first `m` entries: the
conjugate-linear inner product used by both basis builders. -/
noncomputable def cdot (m : ℕ) (u v : CVec) : ℂ :=
  ∑ k in Finset.range m, (starRingEnd ℂ) (u k) * v k

/-- Embedding of `np.linalg.norm(v, 2)` over the first `m` entries. -/
noncomputable def norm2 (m : ℕ) (v : CVec) : ℝ :=
  Real.sqrt (∑ k in Finset.range m, Complex.normSq (v k))

/-- Matrix-vector product `A @ v` over the first `m` entries. -/
noncomputable def mulVecN (m : ℕ) (A : CMat) (v : CVec) : CVec :=
  fun r => ∑ k in Finset.range m, A r k * v k

/-- Matrix-matrix product `A @ B` with inner dimension `m`. -/
noncomputable def matMulN (m : ℕ) (A B : CMat) : CMat :=
  fun r c => ∑ k in Finset.range m, A r k * B k c

/-- Inner loop of `arnoldi` at outer index `j` (modified Gram-Schmidt):
for `i = 1..cnt` it sets `H[i-1, j-1] = np.dot(V[:, i-1].conj(), w)` and
subtracts `H[i-1, j-1] * V[:, i-1]` from `w`, sequentially. -/
noncomputable def gsLoop (m : ℕ) (V : CMat) (j : ℕ) : ℕ → CVec × CMat → CVec × CMat
  | 0, s => s
  | cnt + 1, s =>
    let s' := gsLoop m V j cnt s
    let h := cdot m (col V cnt) s'.1
    (fun r => s'.1 r - h * V r cnt, setEntry s'.2 cnt (j - 1) h)

/-- Outer loop of `arnoldi`, `for j in range(1, m+1)`, carrying the state
`(V, H, k)` where `k` instruments the number of columns of `V` built so
far.  For `j ≠ m` the subdiagonal entry `H[j, j-1] = norm(w, 2)` is
written; if it exceeds `1e-12` the normalized `w` becomes `V[:, j]` and
the iteration continues, otherwise the partially filled `(V, H)` is
returned at once (breakdown).  At `j = m` only the inner loop runs. -/
noncomputable def arnoldiGo (m : ℕ) (A : CMat) :
    ℕ → ℕ → CMat × CMat × ℕ → CMat × CMat × ℕ
  | 0, _, s => s
  | fuel + 1, j, s =>
    if m < j then s
    else
      let w := mulVecN m A (col s.1 (j - 1))
      let sw := gsLoop m s.1 j j (w, s.2.1)
      if j ≠ m then
        let nu := norm2 m sw.1
        let H2 := setEntry sw.2 j (j - 1) (nu : ℂ)
        if 1e-12 < nu then
          arnoldiGo m A fuel (j + 1)
            (setCol s.1 j (fun r => sw.1 r / (nu : ℂ)), H2, s.2.2 + 1)
        else (s.1, H2, s.2.2)
      else (s.1, sw.2, s.2.2)

/-- Embedding of `arnoldi` (misc.py) with instrumentation: the returned
triple is `(V, H, k)` where `k` counts the constructed columns of `V`
(the column `V[:, 0] = b / norm(b)` plus one per completed iteration). -/
noncomputable def arnoldiAux (m : ℕ) (A : CMat) (b : CVec) : CMat × CMat × ℕ :=
  arnoldiGo m A m 1
    (setCol (fun _ _ => 0) 0 (fun r => b r / (norm2 m b : ℂ)), fun _ _ => 0, 1)

/-- Embedding of `arnoldi` (misc.py): the `(V, H)` pair the source
returns. -/
noncomputable def arnoldi (m : ℕ) (A : CMat) (b : CVec) : CMat × CMat :=
  ((arnoldiAux m A b).1, (arnoldiAux m A b).2.1)

/-- Initialization of `lanczos` (misc.py) before its loop:
`V[:, 0] = b / norm(b)`, `alpha[0] = np.dot(w.conj(), V[:, 0])` with
`w = A @ V[:, 0]`, and `W[:, 0] = w - alpha[0] * V[:, 0]`.  State is
`(V, alpha, beta, W)`. -/
noncomputable def lanczosInit (m : ℕ) (A : CMat) (b : CVec) :
    CMat × CVec × CVec × CMat :=
  let V0 := setCol (fun _ _ => 0) 0 (fun r => b r / (norm2 m b : ℂ))
  let w0 := mulVecN m A (col V0 0)
  let al0 := setv (fun _ => 0) 0 (cdot m w0 (col V0 0))
  let W0 := setCol (fun _ _ => 0) 0 (fun r => w0 r - al0 0 * V0 r 0)
  (V0, al0, fun _ => 0, W0)

/-- Loop of `lanczos` (misc.py), `for j in range(2, m+1)`:
`beta[j-1] = norm(W[:, j-2])`, then `V[:, j-1] = W[:, j-2] / beta[j-1]`
with no guard on a zero `beta[j-1]` (an unguarded division), then the
three-term recurrence update of `alpha` and `W`. -/
noncomputable def lanczosGo (m : ℕ) (A : CMat) :
    ℕ → ℕ → CMat × CVec × CVec × CMat → CMat × CVec × CVec × CMat
  | 0, _, s => s
  | fuel + 1, j, s =>
    if m < j then s
    else
      let be1 := setv s.2.2.1 (j - 1) ((norm2 m (col s.2.2.2 (j - 2)) : ℝ) : ℂ)
      let V1 := setCol s.1 (j - 1) (fun r => s.2.2.2 r (j - 2) / be1 (j - 1))
      let w := mulVecN m A (col V1 (j - 1))
      let al1 := setv s.2.1 (j - 1) (cdot m w (col V1 (j - 1)))
      let W1 := setCol s.2.2.2 (j - 1)
        (fun r => w r - al1 (j - 1) * V1 r (j - 1) - be1 (j - 1) * V1 r (j - 2))
      lanczosGo m A fuel (j + 1) (V1, al1, be1, W1)

/-- Embedding of `lanczos` (misc.py) with the raw final state
`(V, alpha, beta, W)` exposed. -/
noncomputable def lanczosAux (m : ℕ) (A : CMat) (b : CVec) :
    CMat × CVec × CVec × CMat :=
  lanczosGo m A m 2 (lanczosInit m A b)

/-- Embedding of `lanczos` (misc.py): returns `V` and the tridiagonal
`np.diagflat(alpha) + np.diagflat(beta[1:], 1) + np.diagflat(beta[1:], -1)`
assembled as an m×m matrix. -/
noncomputable def lanczos (m : ℕ) (A : CMat) (b : CVec) : CMat × CMat :=
  let s := lanczosAux m A b
  (s.1, fun r c =>
    (if r = c ∧ r < m then s.2.1 r else 0) +
    (if c = r + 1 ∧ c < m then s.2.2.1 c else 0) +
    (if r = c + 1 ∧ r < m then s.2.2.1 r else 0))

/-- Exact Hermitian test `np.array_equal(A.conj().T, A)` on the m×m
block: bitwise equality, no tolerance. -/
def hermQ (m : ℕ) (A : CMat) : Prop :=
  ∀ r < m, ∀ c < m, (starRingEnd ℂ) (A c r) = A r c

open Classical in
/-- Embedding of `krylov_expm` (misc.py): dispatch on the exact Hermitian
test to `lanczos` or `arnoldi`, then return
`norm(b) * V @ mexp(H) @ identity(m)[:, 0]`, with the external dense
matrix exponential `scipy.linalg.expm` abstracted as the parameter
`mexp`. -/
noncomputable def krylov_expm (mexp : CMat → CMat) (m : ℕ) (A : CMat)
    (b : CVec) : CVec :=
  let VH := if hermQ m A then lanczos m A b else arnoldi m A b
  fun r => (norm2 m b : ℂ) *
    mulVecN m (matMulN m VH.1 (mexp VH.2))
      (fun k => if k = 0 ∧ k < m then 1 else 0) r

/-- Numerator coefficient of the (p,q) Padé approximant:
`(p+q-i)! p! / ((p+q)! i! (p-i)!)`, in exact arithmetic. -/
noncomputable def cCoef (p q i : ℕ) : ℂ :=
  (((p + q - i).factorial * p.factorial : ℕ) : ℂ) /
    (((p + q).factorial * i.factorial * (p - i).factorial : ℕ) : ℂ)

/-- Denominator coefficient of the (p,q) Padé approximant:
`(p+q-i)! q! / ((p+q)! i! (q-i)!)`, in exact arithmetic. -/
noncomputable def dCoef (p q i : ℕ) : ℂ :=
  (((p + q - i).factorial * q.factorial : ℕ) : ℂ) /
    (((p + q).factorial * i.factorial * (q - i).factorial : ℕ) : ℂ)

/-- The accumulation loop building `N` in `pade_expm`: after `cnt`
iterations it has summed the terms `i = 0..cnt-1` of
`cCoef p q i • A^i`. -/
noncomputable def padeNLoop {nn : ℕ} (A : Matrix (Fin nn) (Fin nn) ℂ)
    (p q : ℕ) : ℕ → Matrix (Fin nn) (Fin nn) ℂ
  | 0 => 0
  | cnt + 1 => padeNLoop A p q cnt + cCoef p q cnt • A ^ cnt

/-- The accumulation loop building `D` in `pade_expm`, summing
`dCoef p q i • (-A)^i`. -/
noncomputable def padeDLoop {nn : ℕ} (A : Matrix (Fin nn) (Fin nn) ℂ)
    (p q : ℕ) : ℕ → Matrix (Fin nn) (Fin nn) ℂ
  | 0 => 0
  | cnt + 1 => padeDLoop A p q cnt + dCoef p q cnt • (-A) ^ cnt

/-- Embedding of `pade_expm` (misc.py): `np.linalg.inv(D) @ N` with the
loops running `i = 0..p` and `i = 0..q`. -/
noncomputable def pade_expm {nn : ℕ} (A : Matrix (Fin nn) (Fin nn) ℂ)
    (p q : ℕ) : Matrix (Fin nn) (Fin nn) ℂ :=
  (padeDLoop A p q (q + 1))⁻¹ * padeNLoop A p q (p + 1)

/-- Identity 2×2 matrix of the Krylov embedding, used in concrete
statements about `lanczos`. -/
def idMat2 : CMat := fun r c => if r = c ∧ r < 2 then 1 else 0

/-- First standard basis vector as an unbounded index function. -/
def e1v : CVec := fun r => if r = 0 then 1 else 0

theorem filterMap_range_eq_of (F : ℕ → Option β) :
    ∀ ρ : List β, (∀ j (hj : j < ρ.length), F j = some (ρ.get ⟨j, hj⟩)) →
      (List.range ρ.length).filterMap F = ρ := by
  intro ρ
  induction ρ generalizing F with
  | nil => intro _; simp
  | cons a tl ih =>
    intro h
    have h0 : F 0 = some a := h 0 (Nat.succ_pos _)
    rw [List.length_cons, List.range_succ_eq_map, List.filterMap_cons_some h0,
      List.filterMap_map]
    congr 1
    exact ih (F ∘ Nat.succ) (fun j hj => h (j + 1) (Nat.succ_lt_succ hj))

theorem colList_cons_of (row : List α) (tl : List (List α)) (j : ℕ)
    (hr : j < row.length) :
    colList (row :: tl) j = row.get ⟨j, hr⟩ :: colList tl j := by
  simp only [colList, List.filterMap_cons, List.getElem?_eq_getElem hr,
    List.get_eq_getElem]

theorem colList_length_of (M : List (List α)) (j c : ℕ) (hj : j < c)
    (hrows : ∀ row ∈ M, row.length = c) : (colList M j).length = M.length := by
  induction M with
  | nil => simp [colList]
  | cons row tl ih =>
    have hr : j < row.length := by rw [hrows row (by simp)]; exact hj
    rw [colList_cons_of row tl j hr]
    simp only [List.length_cons]
    rw [ih (fun r hr' => hrows r (by simp [hr']))]

theorem colList_getElem? (M : List (List α)) (j c : ℕ) (hj : j < c)
    (hrows : ∀ row ∈ M, row.length = c) :
    ∀ (i : ℕ) (hi : i < M.length), (colList M j)[i]? = (M.get ⟨i, hi⟩)[j]? := by
  induction M with
  | nil => intro i hi; simp at hi
  | cons row tl ih =>
    intro i hi
    have hr : j < row.length := by rw [hrows row (by simp)]; exact hj
    rw [colList_cons_of row tl j hr]
    cases i with
    | zero => simp [List.getElem?_eq_getElem hr]
    | succ i' =>
      simp only [List.getElem?_cons_succ]
      exact ih (fun r hr' => hrows r (by simp [hr'])) i' (Nat.lt_of_succ_lt_succ hi)

theorem length_flatMap_range (f : ℕ → List α) (c r : ℕ)
    (hf : ∀ j < c, (f j).length = r) :
    ((List.range c).flatMap f).length = c * r := by
  induction c with
  | zero => simp
  | succ c' ih =>
    rw [List.range_succ, List.flatMap_append, List.length_append,
      ih (fun j hj => hf j (Nat.lt_succ_of_lt hj))]
    simp [hf c' (Nat.lt_succ_self c'), Nat.succ_mul]

theorem getElem?_flatMap_range (f : ℕ → List α) (r : ℕ) :
    ∀ (c : ℕ), (∀ j < c, (f j).length = r) → ∀ (j i : ℕ), j < c → i < r →
      ((List.range c).flatMap f)[j * r + i]? = (f j)[i]? := by
  intro c
  induction c with
  | zero => intro _ j i hj _; exact absurd hj (Nat.not_lt_zero j)
  | succ c' ih =>
    intro hf j i hj hi
    rw [List.range_succ, List.flatMap_append]
    have hlen : ((List.range c').flatMap f).length = c' * r :=
      length_flatMap_range f c' r (fun t ht => hf t (Nat.lt_succ_of_lt ht))
    rcases Nat.lt_or_ge j c' with hlt | hge
    · have hidx : j * r + i < c' * r := by
        calc j * r + i < j * r + r := by omega
        _ = (j + 1) * r := by ring
        _ ≤ c' * r := Nat.mul_le_mul_right r hlt
      rw [List.getElem?_append_left (by rw [hlen]; exact hidx)]
      exact ih (fun t ht => hf t (Nat.lt_succ_of_lt ht)) j i hlt hi
    · have hj' : j = c' := by omega
      subst hj'
      rw [List.getElem?_append_right (by rw [hlen]; exact Nat.le_add_right _ _)]
      rw [hlen]
      simp

theorem headD_length_of (M : List (List α)) (r c : ℕ) (h : IsMat M r c)
    (hr : 0 < r) : (M.headD []).length = c := by
  cases M with
  | nil => exact absurd h.1 (by simp; omega)
  | cons row tl => exact h.2 row (by simp)

theorem vec_getElem? (M : List (List α)) (r c : ℕ) (h : IsMat M r c)
    (hr : 0 < r) (j i : ℕ) (hj : j < c) (hi : i < r) :
    (vec M)[j * r + i]? = (M.get ⟨i, by rw [h.1]; exact hi⟩)[j]? := by
  rw [vec, headD_length_of M r c h hr]
  have hcl : ∀ t < c, (colList M t).length = r := by
    intro t ht
    rw [colList_length_of M t c ht h.2, h.1]
  rw [getElem?_flatMap_range (colList M) r c hcl j i hj hi]
  exact colList_getElem? M j c hj h.2 i (by rw [h.1]; exact hi)

theorem length_vec (M : List (List α)) (r c : ℕ) (h : IsMat M r c)
    (hr : 0 < r) : (vec M).length = c * r := by
  rw [vec, headD_length_of M r c h hr]
  refine length_flatMap_range (colList M) c r (fun j hj => ?_)
  rw [colList_length_of M j c hj h.2, h.1]

theorem reshapeF_vec (M : List (List α)) (r : ℕ) (h : IsMat M r r)
    (hr : 0 < r) : reshapeF (vec M) r r = M := by
  refine List.ext_getElem (by simp [reshapeF, h.1]) ?_
  intro i hi hi2
  have hir : i < r := by simpa [reshapeF] using hi
  have hiM : i < M.length := by rw [h.1]; exact hir
  simp only [reshapeF, List.getElem_map, List.getElem_range]
  have hρ : (M.get ⟨i, hiM⟩).length = r := h.2 _ (M.get_mem _ _)
  have := filterMap_range_eq_of (fun j => (vec M)[j * r + i]?) (M.get ⟨i, hiM⟩)
    (fun j hj => by
      show (vec M)[j * r + i]? = _
      rw [vec_getElem? M r r h hr j i (by rw [hρ] at hj; exact hj) hir]
      exact List.getElem?_eq_getElem (by exact hj))
  rw [hρ] at this
  rw [this]
  simp

/-- Claim C5 counterexample: the round-trip law fails as stated.  For the
3×3 matrix `[[1,2,3],[4,5,6],[7,8,9]]`, `vec` produces a vector of odd
length 9 ≠ 1, so `unvec` with no column count reports a shape error and
returns `None` instead of reconstructing the matrix. -/
theorem vec_unvec_roundtrip_cex :
    unvec (vec [[(1 : ℤ), 2, 3], [4, 5, 6], [7, 8, 9]]) none = Py.errNone ∧
    unvec (vec [[(1 : ℤ), 2, 3], [4, 5, 6], [7, 8, 9]]) none ≠
      Py.ok (NDArr.arr2 [[(1 : ℤ), 2, 3], [4, 5, 6], [7, 8, 9]]) := by
  constructor
  · decide
  · decide

/-- Claim C5, amended: for every square matrix `M` of positive even
dimension `r` (so that the flattened length `r*r` is even and a perfect
square), `unvec (vec M)` with the column count left unspecified
reconstructs `M` exactly. -/
theorem vec_unvec_roundtrip_even_square (M : List (List α)) (r : ℕ)
    (hr : 0 < r) (hev : r % 2 = 0) (h : IsMat M r r) :
    unvec (vec M) none = Py.ok (NDArr.arr2 M) := by
  have hlen : (vec M).length = r * r := length_vec M r r h hr
  have hdvd : (vec M).length % 2 = 0 := by
    rw [hlen, Nat.mul_mod, hev]
  have hsq : Nat.sqrt (vec M).length = r := by rw [hlen, Nat.sqrt_eq]
  simp only [unvec]
  rw [if_neg (by simp [hdvd])]
  rw [if_pos (by rw [hsq, hlen]), if_neg (by rw [hsq]; omega)]
  rw [hsq, hlen, Nat.mul_div_cancel_left r hr]
  rw [reshapeF_vec M r h hr]

/-- Witness for the amended claim C5 at the concrete even-dimension square
matrix `[[1,2],[3,4]]`. -/
theorem vec_unvec_roundtrip_even_square_witness :
    0 < 2 ∧ 2 % 2 = 0 ∧ IsMat [[(1 : ℤ), 2], [3, 4]] 2 2 ∧
    unvec (vec [[(1 : ℤ), 2], [3, 4]]) none =
      Py.ok (NDArr.arr2 [[(1 : ℤ), 2], [3, 4]]) :=
  ⟨by decide, by decide, ⟨by decide, by decide⟩,
    vec_unvec_roundtrip_even_square [[(1 : ℤ), 2], [3, 4]] 2 (by decide)
      (by decide) ⟨by decide, by decide⟩⟩

/-- Claim C8 counterexample: with column count `c = 0` (which does not
evenly divide the length 2), the claim says `unvec` returns `None`; the
code instead evaluates `(len(vec) / c).is_integer()` with `c = 0` and
raises an uncaught `ZeroDivisionError`. -/
theorem unvec_error_cases_cex :
    [(1 : ℤ), 2].length % 0 ≠ 0 ∧ unvec [(1 : ℤ), 2] (some 0) = Py.exn := by
  constructor
  · decide
  · decide

/-- Claim C8, amended: for input vectors of length greater than 1 and a
column count that is nonzero when given, `unvec` returns `None` exactly in
the three claimed cases (odd length; even length, no column count, length
not a perfect square; column count given that does not divide the length),
and in every other case returns a matrix reconstructed from the vector in
column-major order.  (The amendment excludes the length-1 vector, which is
returned unchanged as a 1-D array, and the crashing inputs: the empty
vector and a given column count of zero raise `ZeroDivisionError`.) -/
theorem unvec_error_cases_amended (v : List α) (copt : Option ℕ)
    (hv : 1 < v.length) (hc : ∀ c, copt = some c → 0 < c) :
    ((unvec v copt = Py.errNone) ↔
      (v.length % 2 = 1 ∨
       (v.length % 2 = 0 ∧ copt = none ∧
         Nat.sqrt v.length * Nat.sqrt v.length ≠ v.length) ∨
       (∃ c, copt = some c ∧ v.length % c ≠ 0))) ∧
    (unvec v copt ≠ Py.errNone →
      ∃ cr, unvec v copt = Py.ok (NDArr.arr2 (reshapeF v cr (v.length / cr)))) := by
  rcases copt with _ | c
  · by_cases hodd : v.length % 2 = 1
    · have : unvec v none = Py.errNone := by
        simp only [unvec]
        rw [if_pos (by omega), if_neg (by omega)]
      constructor
      · simp [this, hodd]
      · intro hne; exact absurd this hne
    · have hev : v.length % 2 = 0 := by omega
      by_cases hsq : Nat.sqrt v.length * Nat.sqrt v.length = v.length
      · have hs0 : Nat.sqrt v.length ≠ 0 := by
          intro h0
          rw [h0] at hsq
          omega
        have : unvec v none =
            Py.ok (NDArr.arr2 (reshapeF v (Nat.sqrt v.length)
              (v.length / Nat.sqrt v.length))) := by
          simp only [unvec]
          rw [if_neg (by omega), if_pos hsq, if_neg hs0]
        constructor
        · simp [this, hodd, hev, hsq]
        · intro _; exact ⟨Nat.sqrt v.length, this⟩
      · have : unvec v none = Py.errNone := by
          simp only [unvec]
          rw [if_neg (by omega), if_neg hsq]
        constructor
        · simp [this, hev, hsq, hodd]
        · intro hne; exact absurd this hne
  · have hcpos : 0 < c := hc c rfl
    by_cases hodd : v.length % 2 = 1
    · have : unvec v (some c) = Py.errNone := by
        simp only [unvec]
        rw [if_pos (by omega), if_neg (by omega)]
      constructor
      · simp [this, hodd]
      · intro hne; exact absurd this hne
    · have hev : v.length % 2 = 0 := by omega
      by_cases hdvd : v.length % c = 0
      · have : unvec v (some c) =
            Py.ok (NDArr.arr2 (reshapeF v c (v.length / c))) := by
          simp only [unvec]
          rw [if_neg (by omega), if_neg (by omega), if_neg (by omega)]
        constructor
        · constructor
          · intro hcon; rw [this] at hcon; exact absurd hcon (by simp)
          · rintro (h1 | ⟨_, hnone, _⟩ | ⟨c', hcc, hnd⟩)
            · omega
            · exact absurd hnone (by simp)
            · rw [Option.some_inj] at hcc
              subst hcc
              omega
        · intro _; exact ⟨c, this⟩
      · have : unvec v (some c) = Py.errNone := by
          simp only [unvec]
          rw [if_neg (by omega), if_neg (by omega), if_pos (by omega)]
        constructor
        · simp only [this, true_iff]
          exact Or.inr (Or.inr ⟨c, rfl, hdvd⟩)
        · intro hne; exact absurd this hne

/-- Witness for the amended claim C8 at the spec scenario
`unvectorize([1,2,3,4,5])`: odd length 5 ≠ 1 with no column count, so the
call reports a shape error and returns `None`. -/
theorem unvec_error_cases_amended_witness :
    1 < [(1 : ℤ), 2, 3, 4, 5].length ∧
    (((unvec [(1 : ℤ), 2, 3, 4, 5] none = Py.errNone) ↔
      ([(1 : ℤ), 2, 3, 4, 5].length % 2 = 1 ∨
       ([(1 : ℤ), 2, 3, 4, 5].length % 2 = 0 ∧ (none : Option ℕ) = none ∧
         Nat.sqrt [(1 : ℤ), 2, 3, 4, 5].length *
           Nat.sqrt [(1 : ℤ), 2, 3, 4, 5].length ≠
             [(1 : ℤ), 2, 3, 4, 5].length) ∨
       (∃ c, (none : Option ℕ) = some c ∧
         [(1 : ℤ), 2, 3, 4, 5].length % c ≠ 0))) ∧
     (unvec [(1 : ℤ), 2, 3, 4, 5] none ≠ Py.errNone →
      ∃ cr, unvec [(1 : ℤ), 2, 3, 4, 5] none =
        Py.ok (NDArr.arr2 (reshapeF [(1 : ℤ), 2, 3, 4, 5] cr
          ([(1 : ℤ), 2, 3, 4, 5].length / cr))))) :=
  ⟨by decide, unvec_error_cases_amended [(1 : ℤ), 2, 3, 4, 5] none (by decide)
    (by simp)⟩

/-- Claim C10: an input vector of length exactly 1 is returned by `unvec`
unchanged and still one-dimensional, for any optional column count — it is
neither reshaped into a 1×1 matrix nor treated as an invalid shape. -/
theorem unvec_singleton_identity (v : List α) (copt : Option ℕ)
    (hv : v.length = 1) : unvec v copt = Py.ok (NDArr.arr1 v) := by
  simp only [unvec]
  rw [if_pos (by omega), if_pos hv]

/-- Witness for claim C10 at the one-element vector `[5]` with a column
count supplied (which the length-1 path ignores). -/
theorem unvec_singleton_identity_witness :
    [(5 : ℤ)].length = 1 ∧ unvec [(5 : ℤ)] (some 3) = Py.ok (NDArr.arr1 [(5 : ℤ)]) :=
  ⟨by decide, unvec_singleton_identity [(5 : ℤ)] (some 3) (by decide)⟩

theorem lanczosGo_zero (m : ℕ) (A : CMat) (j : ℕ)
    (s : CMat × CVec × CVec × CMat) : lanczosGo m A 0 j s = s := rfl

theorem lanczosGo_succ (m : ℕ) (A : CMat) (fuel j : ℕ)
    (s : CMat × CVec × CVec × CMat) :
    lanczosGo m A (fuel + 1) j s =
      if m < j then s
      else
        let be1 := setv s.2.2.1 (j - 1) ((norm2 m (col s.2.2.2 (j - 2)) : ℝ) : ℂ)
        let V1 := setCol s.1 (j - 1) (fun r => s.2.2.2 r (j - 2) / be1 (j - 1))
        let w := mulVecN m A (col V1 (j - 1))
        let al1 := setv s.2.1 (j - 1) (cdot m w (col V1 (j - 1)))
        let W1 := setCol s.2.2.2 (j - 1)
          (fun r => w r - al1 (j - 1) * V1 r (j - 1) - be1 (j - 1) * V1 r (j - 2))
        lanczosGo m A fuel (j + 1) (V1, al1, be1, W1) := rfl

theorem arnoldiGo_zero (m : ℕ) (A : CMat) (j : ℕ) (s : CMat × CMat × ℕ) :
    arnoldiGo m A 0 j s = s := rfl

theorem arnoldiGo_succ (m : ℕ) (A : CMat) (fuel j : ℕ) (s : CMat × CMat × ℕ) :
    arnoldiGo m A (fuel + 1) j s =
      if m < j then s
      else
        let w := mulVecN m A (col s.1 (j - 1))
        let sw := gsLoop m s.1 j j (w, s.2.1)
        if j ≠ m then
          let nu := norm2 m sw.1
          let H2 := setEntry sw.2 j (j - 1) (nu : ℂ)
          if 1e-12 < nu then
            arnoldiGo m A fuel (j + 1)
              (setCol s.1 j (fun r => sw.1 r / (nu : ℂ)), H2, s.2.2 + 1)
          else (s.1, H2, s.2.2)
        else (s.1, sw.2, s.2.2) := rfl

/-- Claim C7: for every method string other than "scipy" and "me",
`pre_integrate` prints "Error: invalid method." and returns the sentinel
value `0` as a normal return, regardless of the coefficient and time-grid
arguments. -/
theorem pre_integrate_unknown_method_sentinel
    (squad : (ℝ → ℝ) → ℝ → ℝ → ℝ × ℝ) (xw : ℕ → ℝ × ℝ)
    (H_coeff : List PyVal) (tlist : List ℝ) (method : String)
    (h1 : method ≠ "scipy") (h2 : method ≠ "me") :
    pre_integrate squad xw H_coeff tlist method = Except.ok (PyVal.num 0) := by
  rw [pre_integrate, if_neg h1, if_neg h2]

/-- Witness for claim C7 at the spec scenario `method="bogus"`. -/
theorem pre_integrate_unknown_method_sentinel_witness :
    ("bogus" ≠ "scipy" ∧ "bogus" ≠ "me") ∧
    pre_integrate quadZero xwZero [] [] "bogus" = Except.ok (PyVal.num 0) :=
  ⟨⟨by decide, by decide⟩,
    pre_integrate_unknown_method_sentinel quadZero xwZero [] [] "bogus"
      (by decide) (by decide)⟩

/-- Claim C6 (code bug): on the intended reading, `pre_integrate` with
`method = "me"` should return one triple per interval of `tlist`, with the
third entry the triple's own third component scaled by the interval width.
The code instead loops `for i in range(len(tlist))` (overrunning
`tlist[i+1]` on the last iteration) and evaluates `H_coeff[2]` rather than
`H_coeff[i][2]`.  At the concrete input with one coefficient triple and
the two-point grid `[0, 1]` this raises `IndexError` (via `H_coeff[2]` on
the very first iteration) instead of producing the single claimed
triple. -/
theorem pre_integrate_me_crash :
    pre_integrate quadZero xwZero
      [PyVal.list [PyVal.fn (fun t => t), PyVal.fn (fun t => t), PyVal.num 1]]
      [(0 : ℝ), 1] "me" = Except.error PyErr.indexError := rfl

theorem lanczosGo_gt (m : ℕ) (A : CMat) (fuel j : ℕ)
    (s : CMat × CVec × CVec × CMat) (h : m < j) : lanczosGo m A fuel j s = s := by
  cases fuel with
  | zero => rfl
  | succ fuel' => rw [lanczosGo_succ, if_pos h]

theorem norm2_e1v : norm2 2 e1v = 1 := by
  rw [norm2, Finset.sum_range_succ, Finset.sum_range_succ, Finset.sum_range_zero]
  norm_num [e1v, Complex.normSq_one, Complex.normSq_zero, Real.sqrt_one]

theorem lanczosInit_V2 : ∀ r, (lanczosInit 2 idMat2 e1v).1 r 0 = e1v r := by
  intro r
  simp [lanczosInit, setCol, norm2_e1v]

theorem mulVecN_idMat2 : ∀ r, mulVecN 2 idMat2 e1v r = e1v r := by
  intro r
  rw [mulVecN, Finset.sum_range_succ, Finset.sum_range_succ, Finset.sum_range_zero]
  by_cases h : r = 0
  · subst h; norm_num [idMat2, e1v]
  · norm_num [idMat2, e1v, h]

theorem lanczosInit_W2 : ∀ r, (lanczosInit 2 idMat2 e1v).2.2.2 r 0 = 0 := by
  intro r
  show (setCol (fun _ _ => 0) 0 (fun t =>
      mulVecN 2 idMat2 (col (lanczosInit 2 idMat2 e1v).1 0) t -
        cdot 2 (mulVecN 2 idMat2 (col (lanczosInit 2 idMat2 e1v).1 0))
          (col (lanczosInit 2 idMat2 e1v).1 0) * (lanczosInit 2 idMat2 e1v).1 t 0)) r 0 = 0
  have hcol : col (lanczosInit 2 idMat2 e1v).1 0 = e1v := by
    funext t
    exact lanczosInit_V2 t
  rw [hcol]
  have hmv : mulVecN 2 idMat2 e1v = e1v := by
    funext t
    exact mulVecN_idMat2 t
  rw [hmv]
  have hc : cdot 2 e1v e1v = 1 := by
    rw [cdot, Finset.sum_range_succ, Finset.sum_range_succ, Finset.sum_range_zero]
    norm_num [e1v]
  rw [setCol, hc]
  simp [lanczosInit_V2 r]

theorem norm2_W2col : norm2 2 (col (lanczosInit 2 idMat2 e1v).2.2.2 0) = 0 := by
  rw [norm2, Finset.sum_range_succ, Finset.sum_range_succ, Finset.sum_range_zero]
  rw [col, col]
  rw [lanczosInit_W2 0, lanczosInit_W2 1]
  norm_num [Real.sqrt_zero]

/-- Claim C4: for the Hermitian 2×2 identity matrix and the nonzero vector
e1 (whose Krylov subspace closes at order 1, before n = 2), the Lanczos
loop at step j = 2 computes `beta[1] = norm(W[:, 0]) = 0` and then divides
`W[:, 0]` by that zero value with no breakdown guard; the quotient is the
column stored into `V[:, 1]` (division by zero, rendered as the
everywhere-zero column under Lean's total division). -/
theorem lanczos_unguarded_division_by_zero :
    hermQ 2 idMat2 ∧ (∃ i, i < 2 ∧ e1v i ≠ 0) ∧
    (lanczosAux 2 idMat2 e1v).2.2.1 1 = 0 ∧
    col (lanczosAux 2 idMat2 e1v).1 1 = fun _ => 0 := by
  have hherm : hermQ 2 idMat2 := by
    intro r hr c hc
    by_cases h : r = c
    · subst h
      simp [idMat2, hr]
    · have h1 : ¬ (c = r ∧ c < 2) := by omega
      have h2 : ¬ (r = c ∧ r < 2) := by omega
      simp [idMat2, h1, h2]
  have haux : lanczosAux 2 idMat2 e1v =
      lanczosGo 2 idMat2 (1 + 1) 2 (lanczosInit 2 idMat2 e1v) := rfl
  refine ⟨hherm, ⟨0, by norm_num, by simp [e1v]⟩, ?_, ?_⟩
  · rw [haux, lanczosGo_succ, if_neg (by norm_num)]
    simp only []
    rw [lanczosGo_gt _ _ _ _ _ (by norm_num)]
    simp only [setv]
    norm_num [norm2_W2col]
  · rw [haux, lanczosGo_succ, if_neg (by norm_num)]
    simp only []
    rw [lanczosGo_gt _ _ _ _ _ (by norm_num)]
    funext r
    simp only [col, setCol, setv]
    norm_num [lanczosInit_W2 r]

theorem gsLoop_snd_apply (m : ℕ) (V : CMat) (j : ℕ) :
    ∀ (cnt : ℕ) (s : CVec × CMat) (r c : ℕ), c ≠ j - 1 →
      (gsLoop m V j cnt s).2 r c = s.2 r c := by
  intro cnt
  induction cnt with
  | zero => intro s r c _; rfl
  | succ cnt' ih =>
    intro s r c hc
    show setEntry (gsLoop m V j cnt' s).2 cnt' (j - 1) _ r c = s.2 r c
    rw [setEntry]
    simp only [hc, and_false, if_false]
    exact ih s r c hc

/-- Claim C3: at an Arnoldi step `j < m` (with the state well-formed:
columns of `V` and `H` from index `j` on still zero), the computed
subdiagonal norm `nu = norm(w, 2)` is stored as `H[j, j-1]`; if it exceeds
the fixed tolerance `1e-12` then `w / nu` is stored as column `j` of `V`
and the loop continues at `j + 1`, and otherwise the call returns the
partially filled `(V, H)` at once as a normal value (no error), with every
column of `V` and of `H` beyond index `j` still zero. -/
theorem arnoldi_step_breakdown (m : ℕ) (A : CMat) (fuel j : ℕ)
    (V H : CMat) (k : ℕ) (hj1 : 1 ≤ j) (hjm : j < m)
    (hV : ∀ r c, j ≤ c → V r c = 0) (hH : ∀ r c, j ≤ c → H r c = 0) :
    let sw := gsLoop m V j j (mulVecN m A (col V (j - 1)), H)
    let nu := norm2 m sw.1
    let H2 := setEntry sw.2 j (j - 1) (nu : ℂ)
    (1e-12 < nu →
      arnoldiGo m A (fuel + 1) j (V, H, k) =
        arnoldiGo m A fuel (j + 1)
          (setCol V j (fun r => sw.1 r / (nu : ℂ)), H2, k + 1)) ∧
    (¬ 1e-12 < nu →
      arnoldiGo m A (fuel + 1) j (V, H, k) = (V, H2, k) ∧
      ∀ r c, j < c → V r c = 0 ∧ H2 r c = 0) := by
  intro sw nu H2
  have hne : j ≠ m := by omega
  constructor
  · intro hgt
    rw [arnoldiGo_succ, if_neg (by omega)]
    simp only [if_pos hne, hne, if_true]
    rw [if_pos hgt]
  · intro hle
    constructor
    · rw [arnoldiGo_succ, if_neg (by omega)]
      simp only [if_pos hne, hne, if_true]
      rw [if_neg hle]
    · intro r c hc
      refine ⟨hV r c (by omega), ?_⟩
      show setEntry sw.2 j (j - 1) (nu : ℂ) r c = 0
      rw [setEntry]
      have hcj : ¬ (r = j ∧ c = j - 1) := by omega
      rw [if_neg hcj]
      rw [gsLoop_snd_apply m V j j _ r c (by omega)]
      exact hH r c (by omega)

/-- Witness for claim C3 at the concrete state entering step `j = 1` for
`m = 2`, the zero matrix `A`, and a `V` whose only constructed column is
`e1`. -/
theorem arnoldi_step_breakdown_witness :
    (1 ≤ 1) ∧ (1 < 2) ∧
    (∀ r c, 1 ≤ c → setCol (fun _ _ => (0 : ℂ)) 0 e1v r c = 0) ∧
    (∀ r c : ℕ, 1 ≤ c → (fun _ _ => (0 : ℂ)) r c = 0) ∧
    (let sw := gsLoop 2 (setCol (fun _ _ => 0) 0 e1v) 1 1
        (mulVecN 2 (fun _ _ => 0) (col (setCol (fun _ _ => 0) 0 e1v) 0),
          fun _ _ => 0)
     let nu := norm2 2 sw.1
     let H2 := setEntry sw.2 1 (1 - 1) (nu : ℂ)
     (1e-12 < nu →
       arnoldiGo 2 (fun _ _ => 0) (0 + 1) 1
           (setCol (fun _ _ => 0) 0 e1v, fun _ _ => 0, 1) =
         arnoldiGo 2 (fun _ _ => 0) 0 (1 + 1)
           (setCol (setCol (fun _ _ => 0) 0 e1v) 1
             (fun r => sw.1 r / (nu : ℂ)), H2, 1 + 1)) ∧
     (¬ 1e-12 < nu →
       arnoldiGo 2 (fun _ _ => 0) (0 + 1) 1
           (setCol (fun _ _ => 0) 0 e1v, fun _ _ => 0, 1) =
         (setCol (fun _ _ => 0) 0 e1v, H2, 1) ∧
       ∀ r c, 1 < c → setCol (fun _ _ => (0 : ℂ)) 0 e1v r c = 0 ∧ H2 r c = 0)) :=
  ⟨le_refl 1, by omega,
    fun r c hc => by rw [setCol]; rw [if_neg (by omega)],
    fun r c hc => rfl,
    arnoldi_step_breakdown 2 (fun _ _ => 0) 0 1
      (setCol (fun _ _ => 0) 0 e1v) (fun _ _ => 0) 1 (le_refl 1) (by omega)
      (fun r c hc => by rw [setCol]; rw [if_neg (by omega)])
      (fun r c hc => rfl)⟩

theorem cdot_sub_mulv (m : ℕ) (u v z : CVec) (a : ℂ) :
    cdot m u (fun r => v r - a * z r) = cdot m u v - a * cdot m u z := by
  simp only [cdot, Finset.mul_sum, ← Finset.sum_sub_distrib]
  refine Finset.sum_congr rfl (fun k _ => by ring)

theorem cdot_conj (m : ℕ) (u v : CVec) :
    cdot m v u = (starRingEnd ℂ) (cdot m u v) := by
  simp only [cdot, map_sum, map_mul, Complex.conj_conj]
  refine Finset.sum_congr rfl (fun k _ => by ring)

theorem cdot_div_right (m : ℕ) (u v : CVec) (c : ℂ) :
    cdot m u (fun r => v r / c) = cdot m u v / c := by
  simp only [cdot, div_eq_mul_inv, Finset.sum_mul]
  refine Finset.sum_congr rfl (fun k _ => by ring)

theorem cdot_self_cast (m : ℕ) (v : CVec) :
    cdot m v v = ((∑ k in Finset.range m, Complex.normSq (v k) : ℝ) : ℂ) := by
  simp only [cdot, Complex.ofReal_sum]
  refine Finset.sum_congr rfl (fun k _ => ?_)
  rw [Complex.normSq_eq_conj_mul_self]

theorem norm2_mul_self (m : ℕ) (v : CVec) :
    (norm2 m v) * (norm2 m v) = ∑ k in Finset.range m, Complex.normSq (v k) := by
  rw [norm2]
  exact Real.mul_self_sqrt (Finset.sum_nonneg (fun k _ => Complex.normSq_nonneg _))

theorem norm2_pos_of (m : ℕ) (b : CVec) (hb : ∃ i, i < m ∧ b i ≠ 0) :
    0 < norm2 m b := by
  rcases hb with ⟨i, hi, hbi⟩
  rw [norm2]
  refine Real.sqrt_pos.mpr ?_
  refine Finset.sum_pos' (fun k _ => Complex.normSq_nonneg _) ?_
  exact ⟨i, Finset.mem_range.mpr hi, Complex.normSq_pos.mpr hbi⟩

theorem cdot_normalized_self (m : ℕ) (w : CVec) (h : norm2 m w ≠ 0) :
    cdot m (fun r => w r / ((norm2 m w : ℝ) : ℂ))
      (fun r => w r / ((norm2 m w : ℝ) : ℂ)) = 1 := by
  have hconj : (starRingEnd ℂ) ((norm2 m w : ℝ) : ℂ) = ((norm2 m w : ℝ) : ℂ) :=
    Complex.conj_ofReal _
  have hexp : cdot m (fun r => w r / ((norm2 m w : ℝ) : ℂ))
      (fun r => w r / ((norm2 m w : ℝ) : ℂ)) =
      cdot m w w / (((norm2 m w : ℝ) : ℂ) * ((norm2 m w : ℝ) : ℂ)) := by
    simp only [cdot, div_eq_mul_inv, map_mul, hconj, Finset.sum_mul, mul_inv]
    refine Finset.sum_congr rfl (fun k _ => ?_)
    rw [map_inv₀, hconj]
    ring
  rw [hexp, cdot_self_cast, ← Complex.ofReal_mul, norm2_mul_self]
  rw [div_self]
  rw [Ne, Complex.ofReal_eq_zero]
  rw [← norm2_mul_self]
  exact mul_ne_zero h h

theorem col_setCol_same (V : CMat) (j : ℕ) (w : CVec) :
    col (setCol V j w) j = w := by
  funext r
  simp [col, setCol]

theorem col_setCol_ne (V : CMat) (j i : ℕ) (w : CVec) (h : i ≠ j) :
    col (setCol V j w) i = col V i := by
  funext r
  simp [col, setCol, h]

theorem gsLoop_fst_orth (m : ℕ) (V : CMat) (j : ℕ)
    (hortho : ∀ a c, a < j → c < j →
      cdot m (col V a) (col V c) = if a = c then 1 else 0) :
    ∀ (cnt : ℕ), cnt ≤ j → ∀ (s : CVec × CMat) (t : ℕ), t < cnt →
      cdot m (col V t) ((gsLoop m V j cnt s).1) = 0 := by
  intro cnt
  induction cnt with
  | zero => intro _ s t ht; exact absurd ht (Nat.not_lt_zero t)
  | succ cnt' ih =>
    intro hle s t ht
    show cdot m (col V t)
      (fun r => (gsLoop m V j cnt' s).1 r -
        cdot m (col V cnt') (gsLoop m V j cnt' s).1 * V r cnt') = 0
    have hz : (fun r : ℕ => V r cnt') = col V cnt' := rfl
    rw [show (fun r => (gsLoop m V j cnt' s).1 r -
        cdot m (col V cnt') (gsLoop m V j cnt' s).1 * V r cnt') =
      (fun r => (gsLoop m V j cnt' s).1 r -
        cdot m (col V cnt') (gsLoop m V j cnt' s).1 * col V cnt' r) from rfl]
    rw [cdot_sub_mulv]
    rcases Nat.lt_or_ge t cnt' with hlt | hge
    · rw [ih (by omega) s t hlt]
      rw [hortho t cnt' (by omega) (by omega), if_neg (by omega)]
      ring
    · have htc : t = cnt' := by omega
      subst htc
      rw [hortho t t (by omega) (by omega), if_pos rfl]
      ring

theorem arnoldiGo_inv (m : ℕ) (A : CMat) :
    ∀ (fuel j : ℕ) (V H : CMat) (k : ℕ), k = j → 1 ≤ j → j ≤ m →
      m ≤ j + fuel →
      (∀ a c, a < j → c < j →
        cdot m (col V a) (col V c) = if a = c then 1 else 0) →
      ((arnoldiGo m A fuel j (V, H, k)).2.2 ≤ m ∧
       ∀ a c, a < (arnoldiGo m A fuel j (V, H, k)).2.2 →
         c < (arnoldiGo m A fuel j (V, H, k)).2.2 →
         cdot m (col (arnoldiGo m A fuel j (V, H, k)).1 a)
           (col (arnoldiGo m A fuel j (V, H, k)).1 c) =
             if a = c then 1 else 0) := by
  intro fuel
  induction fuel with
  | zero =>
    intro j V H k hk hj1 hjm hfuel hinv
    rw [arnoldiGo_zero]
    refine ⟨show k ≤ m by omega, ?_⟩
    intro a c ha hc
    have ha' : a < k := ha
    have hc' : c < k := hc
    exact hinv a c (by omega) (by omega)
  | succ fuel' ih =>
    intro j V H k hk hj1 hjm hfuel hinv
    rw [arnoldiGo_succ, if_neg (by omega)]
    simp only []
    by_cases hjem : j ≠ m
    · rw [if_pos hjem]
      set sw := gsLoop m V j j (mulVecN m A (col V (j - 1)), H) with hsw
      set nu := norm2 m sw.1 with hnu
      by_cases hbig : 1e-12 < nu
      · rw [if_pos hbig]
        have hnupos : (0 : ℝ) < nu := lt_trans (by norm_num) hbig
        have hnuz : nu ≠ 0 := ne_of_gt hnupos
        have horthnew : ∀ a c, a < j + 1 → c < j + 1 →
            cdot m (col (setCol V j (fun r => sw.1 r / ((nu : ℝ) : ℂ))) a)
              (col (setCol V j (fun r => sw.1 r / ((nu : ℝ) : ℂ))) c) =
                if a = c then 1 else 0 := by
          have hwj : ∀ a, a < j →
              cdot m (col V a) (fun r => sw.1 r / ((nu : ℝ) : ℂ)) = 0 := by
            intro a haj
            rw [cdot_div_right]
            rw [hsw, gsLoop_fst_orth m V j hinv j (le_refl j) _ a haj]
            exact zero_div _
          intro a c ha hc
          rcases Nat.lt_or_ge a j with haj | haj
          · rcases Nat.lt_or_ge c j with hcj | hcj
            · rw [col_setCol_ne V j a _ (by omega), col_setCol_ne V j c _ (by omega)]
              exact hinv a c haj hcj
            · have hcj' : c = j := by omega
              subst hcj'
              rw [col_setCol_ne V c a _ (by omega), col_setCol_same]
              rw [hwj a haj, if_neg (by omega)]
          · have haj' : a = j := by omega
            subst haj'
            rcases Nat.lt_or_ge c a with hcj | hcj
            · rw [col_setCol_ne V a c _ (by omega), col_setCol_same]
              rw [cdot_conj]
              rw [hwj c hcj, if_neg (by omega)]
              exact map_zero _
            · have hcj' : c = a := by omega
              subst hcj'
              rw [col_setCol_same, if_pos rfl, hnu]
              exact cdot_normalized_self m sw.1 (by rw [← hnu]; exact hnuz)
        have := ih (j + 1) (setCol V j (fun r => sw.1 r / ((nu : ℝ) : ℂ)))
          (setEntry sw.2 j (j - 1) ((nu : ℝ) : ℂ)) (k + 1) (by omega) (by omega)
          (by omega) (by omega) horthnew
        exact this
      · rw [if_neg hbig]
        refine ⟨show k ≤ m by omega, ?_⟩
        intro a c ha hc
        have ha' : a < k := ha
        have hc' : c < k := hc
        exact hinv a c (by omega) (by omega)
    · rw [if_neg hjem]
      refine ⟨show k ≤ m by omega, ?_⟩
      intro a c ha hc
      have ha' : a < k := ha
      have hc' : c < k := hc
      exact hinv a c (by omega) (by omega)

/-- Claim C2: in exact arithmetic, for every matrix `A` and nonzero vector
`b`, the constructed columns of the basis returned by `arnoldi A b` — all
columns up to the point of breakdown (the count instrumented by
`arnoldiAux`), or all `m` columns when no breakdown occurs — are pairwise
orthonormal: the conjugate inner products form the identity on those
columns. -/
theorem arnoldi_orthonormal (m : ℕ) (A : CMat) (b : CVec)
    (hb : ∃ i, i < m ∧ b i ≠ 0) :
    (arnoldiAux m A b).2.2 ≤ m ∧
    ∀ a c, a < (arnoldiAux m A b).2.2 → c < (arnoldiAux m A b).2.2 →
      cdot m (col (arnoldi m A b).1 a) (col (arnoldi m A b).1 c) =
        if a = c then 1 else 0 := by
  have hm : 1 ≤ m := by
    rcases hb with ⟨i, hi, _⟩
    omega
  have hbase : ∀ a c, a < 1 → c < 1 →
      cdot m (col (setCol (fun _ _ => 0) 0
          (fun r => b r / ((norm2 m b : ℝ) : ℂ))) a)
        (col (setCol (fun _ _ => 0) 0
          (fun r => b r / ((norm2 m b : ℝ) : ℂ))) c) =
          if a = c then 1 else 0 := by
    intro a c ha hc
    have ha0 : a = 0 := by omega
    have hc0 : c = 0 := by omega
    subst ha0
    subst hc0
    rw [col_setCol_same, if_pos rfl]
    exact cdot_normalized_self m b (ne_of_gt (norm2_pos_of m b hb))
  exact arnoldiGo_inv m A m 1
    (setCol (fun _ _ => 0) 0 (fun r => b r / ((norm2 m b : ℝ) : ℂ)))
    (fun _ _ => 0) 1 rfl (le_refl 1) hm (by omega) hbase

/-- Witness for claim C2 at `m = 1`, the zero matrix and `b = e1`: one
column is constructed and it has unit norm. -/
theorem arnoldi_orthonormal_witness :
    (∃ i, i < 1 ∧ e1v i ≠ 0) ∧
    0 < (arnoldiAux 1 (fun _ _ => 0) e1v).2.2 ∧
    cdot 1 (col (arnoldi 1 (fun _ _ => 0) e1v).1 0)
      (col (arnoldi 1 (fun _ _ => 0) e1v).1 0) = if 0 = 0 then 1 else 0 := by
  have hb : ∃ i, i < 1 ∧ e1v i ≠ 0 := ⟨0, by norm_num, by simp [e1v]⟩
  have hk : 0 < (arnoldiAux 1 (fun _ _ => 0) e1v).2.2 := by
    have h1 : (arnoldiAux 1 (fun _ _ => 0) e1v).2.2 = 1 := rfl
    rw [h1]
    norm_num
  exact ⟨hb, hk, (arnoldi_orthonormal 1 (fun _ _ => 0) e1v hb).2 0 0 hk hk⟩

/-- Claim C1: `krylov_expm` tests `A` for Hermitian-ness by exact equality
with its conjugate transpose (no tolerance), selects `lanczos` when the
test passes and `arnoldi` otherwise, and returns
`norm(b) * V @ exp(H_or_T) @ e1` where `(V, H_or_T)` is the selected
builder's output, the dense matrix exponential is the abstract external
routine `mexp`, and `e1` is the first standard basis vector of length
`m`. -/
theorem krylov_expm_dispatch (mexp : CMat → CMat) (m : ℕ) (A : CMat)
    (b : CVec) (_hb : ∃ i, i < m ∧ b i ≠ 0) :
    (hermQ m A →
      krylov_expm mexp m A b = fun r => ((norm2 m b : ℝ) : ℂ) *
        mulVecN m (matMulN m (lanczos m A b).1 (mexp (lanczos m A b).2))
          (fun t => if t = 0 then 1 else 0) r) ∧
    (¬ hermQ m A →
      krylov_expm mexp m A b = fun r => ((norm2 m b : ℝ) : ℂ) *
        mulVecN m (matMulN m (arnoldi m A b).1 (mexp (arnoldi m A b).2))
          (fun t => if t = 0 then 1 else 0) r) := by
  have he : ∀ (X : CMat) (r : ℕ),
      mulVecN m X (fun t => if t = 0 ∧ t < m then 1 else 0) r =
        mulVecN m X (fun t => if t = 0 then 1 else 0) r := by
    intro X r
    rw [mulVecN, mulVecN]
    refine Finset.sum_congr rfl (fun t ht => ?_)
    have htm : t < m := Finset.mem_range.mp ht
    by_cases h0 : t = 0
    · subst h0
      rw [if_pos ⟨rfl, htm⟩, if_pos rfl]
    · rw [if_neg (fun hh => h0 hh.1), if_neg h0]
  constructor
  · intro h
    simp only [krylov_expm, if_pos h]
    funext r
    rw [he]
  · intro h
    simp only [krylov_expm, if_neg h]
    funext r
    rw [he]

/-- Witness for claim C1 at `m = 1`, the (Hermitian) zero matrix,
`b = e1`, and the identity stand-in for the external dense
exponential. -/
theorem krylov_expm_dispatch_witness :
    (∃ i, i < 1 ∧ e1v i ≠ 0) ∧ hermQ 1 (fun _ _ => 0) ∧
    krylov_expm (fun X => X) 1 (fun _ _ => 0) e1v = fun r =>
      ((norm2 1 e1v : ℝ) : ℂ) *
        mulVecN 1 (matMulN 1 (lanczos 1 (fun _ _ => 0) e1v).1
          ((fun X => X) (lanczos 1 (fun _ _ => 0) e1v).2))
          (fun t => if t = 0 then 1 else 0) r := by
  have hb : ∃ i, i < 1 ∧ e1v i ≠ 0 := ⟨0, by norm_num, by simp [e1v]⟩
  have hherm : hermQ 1 (fun _ _ => 0) := by
    intro r _ c _
    simp
  exact ⟨hb, hherm,
    (krylov_expm_dispatch (fun X => X) 1 (fun _ _ => 0) e1v hb).1 hherm⟩

theorem padeNLoop_eq_sum {nn : ℕ} (A : Matrix (Fin nn) (Fin nn) ℂ)
    (p q : ℕ) : ∀ cnt, padeNLoop A p q cnt =
      ∑ i in Finset.range cnt, cCoef p q i • A ^ i := by
  intro cnt
  induction cnt with
  | zero => simp [padeNLoop]
  | succ c ih =>
    simp only [padeNLoop]
    rw [ih, Finset.sum_range_succ]

theorem padeDLoop_eq_sum {nn : ℕ} (A : Matrix (Fin nn) (Fin nn) ℂ)
    (p q : ℕ) : ∀ cnt, padeDLoop A p q cnt =
      ∑ i in Finset.range cnt, dCoef p q i • (-A) ^ i := by
  intro cnt
  induction cnt with
  | zero => simp [padeDLoop]
  | succ c ih =>
    simp only [padeDLoop]
    rw [ih, Finset.sum_range_succ]

/-- Claim C9: with the denominator matrix invertible, `pade_expm A p q`
equals `D⁻¹ * N` where `N = Σ_{i=0}^{p} c_i • A^i` with
`c_i = (p+q-i)! p! / ((p+q)! i! (p-i)!)` and
`D = Σ_{i=0}^{q} d_i • (-A)^i` with `d_i` defined analogously with `q`. -/
theorem pade_expm_formula {nn : ℕ} (A : Matrix (Fin nn) (Fin nn) ℂ)
    (p q : ℕ)
    (_hD : IsUnit (∑ i in Finset.range (q + 1), dCoef p q i • (-A) ^ i).det) :
    pade_expm A p q =
      (∑ i in Finset.range (q + 1), dCoef p q i • (-A) ^ i)⁻¹ *
        (∑ i in Finset.range (p + 1), cCoef p q i • A ^ i) := by
  rw [pade_expm, padeNLoop_eq_sum, padeDLoop_eq_sum]

/-- Witness for claim C9 at the 1×1 zero matrix with `p = q = 1`, whose
Padé denominator is the identity (determinant 1, invertible). -/
theorem pade_expm_formula_witness :
    IsUnit (∑ i in Finset.range (1 + 1),
      dCoef 1 1 i • (-(0 : Matrix (Fin 1) (Fin 1) ℂ)) ^ i).det ∧
    pade_expm (0 : Matrix (Fin 1) (Fin 1) ℂ) 1 1 =
      (∑ i in Finset.range (1 + 1),
        dCoef 1 1 i • (-(0 : Matrix (Fin 1) (Fin 1) ℂ)) ^ i)⁻¹ *
        (∑ i in Finset.range (1 + 1),
          cCoef 1 1 i • (0 : Matrix (Fin 1) (Fin 1) ℂ) ^ i) := by
  have hd0 : dCoef 1 1 0 = 1 := by
    rw [dCoef]
    norm_num [Nat.factorial]
  have hsum : (∑ i in Finset.range (1 + 1),
      dCoef 1 1 i • (-(0 : Matrix (Fin 1) (Fin 1) ℂ)) ^ i) = 1 := by
    rw [Finset.sum_range_succ, Finset.sum_range_succ, Finset.sum_range_zero]
    rw [hd0]
    simp
  have hD : IsUnit (∑ i in Finset.range (1 + 1),
      dCoef 1 1 i • (-(0 : Matrix (Fin 1) (Fin 1) ℂ)) ^ i).det := by
    rw [hsum]
    simp
  exact ⟨hD, pade_expm_formula (0 : Matrix (Fin 1) (Fin 1) ℂ) 1 1 hD⟩
